import Mathlib

/-!
# Knossos prelude (`src/runtime/knossos-prelude.h`)

A shallow embedding of the hand-written primitives of the Knossos runtime
prelude: `dotv`, `mul$Mat$Vec`, `rev$mul$Mat$Vec`, `imaximum`, `maximum`,
`fwd$maximum`, `rev$maximum`, `digamma`, `rev$lgamma`, `fwd$lgamma`,
`fwd$pow$aFloat`, `rev$pow$aFloat`, `fwd$gt`, `rev$gt` and the `edef_example`
triad.

Conventions of the embedding.

* `vec<T>` is `List T`; `size` is `List.length`.
* `double` is an abstract scalar type `α` carrying exactly the structure the
  function uses: `+`, `*` and `0` for the linear-algebra kernels, a decidable
  `<` for the comparisons of `imaximum`, decidable equality for the test
  `dx == 0.0`.  The definitions assume no law of these operations, so they
  also run on arithmetic that rounds and on a comparison with a NaN; a theorem
  that needs exact numbers or a total order says so in its hypotheses.
* The `$` of the C++ names is written `_` (`mul$Mat$Vec` is `mul_Mat_Vec`).
* A C++ function that can abort (`KS_ASSERT`, bounds-checked indexing,
  `throw "..."`) returns `Except KsError _`.
* `int` and `size_t` counters are natural numbers; the loops only count up to
  a container size, so no wrap-around is modelled.
* A `for (int i = lo; i < hi; ++i)` loop is `forLoop body (hi - lo) lo s`.
* `std::cerr` is an explicit log (a list of strings) that is passed in and
  returned, also when the call fails.
-/

namespace ks

/-- The ways a prelude function can abort. -/
inductive KsError where
  /-- A failed `KS_ASSERT(cond)`; the payload is the text of the condition. -/
  | assertion (cond : String)
  /-- A bounds-checked index access `v[i]` with `i` outside `0 .. size(v)-1`. -/
  | outOfBounds
  /-- A C++ `throw "msg"`; the payload is the thrown string. -/
  | thrown (msg : String)
  deriving DecidableEq, Repr

deriving instance DecidableEq for Except

/-- Modelled from the spec: the `KS_ASSERT` macro of the container header is
not in the sources at hand; a violated precondition is a fatal assertion
failure that aborts the computation. -/
def KS_ASSERT (cond : Bool) (text : String) : Except KsError Unit :=
  if cond then .ok () else .error (.assertion text)

/-- Modelled from the spec: `vec<T>::operator[]` used as an rvalue; the
container collaborator is not in the sources at hand, its index access is
bounds-checked. -/
def idx {β : Type} (xs : List β) (i : Nat) : Except KsError β :=
  match xs[i]? with
  | some x => .ok x
  | none => .error .outOfBounds

/-- Modelled from the spec: `vec<T>::operator[]` used as an lvalue
(`ret[i] = x`); the container collaborator is not in the sources at hand, its
index access is bounds-checked. -/
def setIdx {β : Type} (xs : List β) (i : Nat) (x : β) : Except KsError (List β) :=
  if i < xs.length then .ok (xs.set i x) else .error .outOfBounds

/-- The loop `for (int i = lo; i < hi; ++i) body`, run as
`forLoop body (hi - lo) lo s`: the first argument after `body` is the number
of iterations left, the second the current value of `i`, the third the
variables the body updates.  A failing body aborts the loop. -/
def forLoop {σ : Type} (body : Nat → σ → Except KsError σ) :
    Nat → Nat → σ → Except KsError σ
  | 0, _, s => .ok s
  | n + 1, i, s =>
    match body i s with
    | .ok s1 => forLoop body n (i + 1) s1
    | .error e => .error e

/-- The sum `Σ_i a[i] * b[i]` over the common indices of `a` and `b`. -/
def dotSum {α : Type} [Mul α] [Add α] [Zero α] (a b : List α) : α :=
  (List.zipWith (· * ·) a b).sum

/-- Modelled from the spec: the collaborator `dot(seq, seq) -> scalar` is not
in the sources at hand; it is the sum over index `i` of `a[i]*b[i]`, requires
equal-length inputs and fails with a length-mismatch error otherwise. -/
def dot {α : Type} [Mul α] [Add α] [Zero α] (a b : List α) : Except KsError α :=
  match KS_ASSERT (decide (a.length = b.length)) "size(a) == size(b)" with
  | .ok _ => .ok (dotSum a b)
  | .error e => .error e

/-- Modelled from the spec: `operator*(vec<double>, double)` of the container
collaborator is not in the sources at hand; `v*d` is `v` scaled by `d`. -/
def vscale {α : Type} [Mul α] (v : List α) (d : α) : List α :=
  v.map (· * d)

/-- Modelled from the spec: the collaborator `deltaVec(n, i, x)` is not in
the sources at hand; it is the length-`n` vector that is `x` at index `i` and
`0` elsewhere (a one-hot vector). -/
def deltaVec {α : Type} [Zero α] (n i : Nat) (x : α) : List α :=
  (List.range n).map (fun j => if j = i then x else 0)

/-- Source `double dotv(vec<double> const& a, vec<double> const& b)`: the
call is forwarded to `dot` unchanged. -/
def dotv {α : Type} [Mul α] [Add α] [Zero α] (a b : List α) : Except KsError α :=
  dot a b

/-- Source `vec<double> mul$Mat$Vec(vec<vec<double>> const& M, vec<double> const& v)`.
The vector `ret` starts with `r` slots, each of which the loop overwrites. -/
def mul_Mat_Vec {α : Type} [Mul α] [Add α] [Zero α]
    (M : List (List α)) (v : List α) : Except KsError (List α) :=
  let r := M.length
  let ret : List α := List.replicate r 0
  forLoop (fun i ret => do
      let Mi ← idx M i
      let d ← dot Mi v
      setIdx ret i d)
    (r - 0) 0 ret

/-- Source `rev$mul$Mat$Vec(std::tuple<vec<vec<double>>, vec<double>> const& M_v,
vec<double> const& dr)`.  The first loop fills `retM`, the nested loops fill
`retv`; the inner loop accumulates `retvi` starting from `0`. -/
def rev_mul_Mat_Vec {α : Type} [Mul α] [Add α] [Zero α]
    (M_v : List (List α) × List α) (dr : List α) :
    Except KsError (List (List α) × List α) := do
  let (M, v) := M_v
  let r := M.length
  let c := v.length
  let retM : List (List α) := List.replicate r []
  let retM ← forLoop (fun i retM => do
      let dri ← idx dr i
      setIdx retM i (vscale v dri))
    (r - 0) 0 retM
  let retv : List α := List.replicate c 0
  let retv ← forLoop (fun i retv => do
      let retvi : α := 0
      let retvi ← forLoop (fun j retvi => do
          let Mj ← idx M j
          let Mji ← idx Mj i
          let drj ← idx dr j
          pure (retvi + Mji * drj))
        (r - 0) 0 retvi
      setIdx retv i retvi)
    (c - 0) 0 retv
  pure (retM, retv)

/-- Source `size_t imaximum(vec<double> const &v)`.  The loop state is the
pair `(imax, vmax)`. -/
def imaximum {α : Type} [LT α] [DecidableRel (fun a b : α => a < b)]
    (v : List α) : Except KsError Nat := do
  KS_ASSERT (decide (v.length > 0)) "size(v) > 0"
  let imax : Nat := 0
  let vmax ← idx v imax
  let st ← forLoop (fun i (st : Nat × α) => do
      let vi ← idx v i
      if vi > st.2 then
        let vmax ← idx v i
        pure (i, vmax)
      else
        pure st)
    (v.length - 1) 1 (imax, vmax)
  pure st.1

/-- Source `double maximum(vec<double> const& v)`. -/
def maximum {α : Type} [LT α] [DecidableRel (fun a b : α => a < b)]
    (v : List α) : Except KsError α := do
  let i ← imaximum v
  idx v i

/-- Source `double fwd$maximum(vec<double> const& v, vec<double> const& dv)`.
The marker is written to `cerr` before anything else is evaluated, so the
returned log carries it also when the call aborts. -/
def fwd_maximum {α : Type} [LT α] [DecidableRel (fun a b : α => a < b)]
    (v dv : List α) (cerr : List String) :
    Except KsError α × List String :=
  let cerr := cerr ++ ["[fwd$maximum untested]"]
  (do let i ← imaximum v
      idx dv i,
   cerr)

/-- Source `vec<double> rev$maximum(vec<double> const& v, double dr)`.
The marker is written to `cerr` before anything else is evaluated, so the
returned log carries it also when the call aborts. -/
def rev_maximum {α : Type} [LT α] [DecidableRel (fun a b : α => a < b)] [Zero α]
    (v : List α) (dr : α) (cerr : List String) : Except KsError (List α) × List String :=
  let cerr := cerr ++ ["[rev$maximum untested]"]
  (do let i ← imaximum v
      pure (deltaVec v.length i dr),
   cerr)

/-- Source `double digamma(double x)`: throws unconditionally. -/
def digamma {α : Type} (_x : α) : Except KsError α :=
  .error (.thrown "digamma unimp!\n")

/-- Source `double rev$lgamma(double x, double dr)`: throws unconditionally. -/
def rev_lgamma {α : Type} (_x _dr : α) : Except KsError α :=
  .error (.thrown "rev$gamma unimp!\n")

/-- Source `double fwd$lgamma(double x, double dx)`. -/
def fwd_lgamma {α : Type} [Zero α] [DecidableEq α] (_x dx : α) : Except KsError α :=
  if dx = 0 then
    .ok 0
  else
    .error (.thrown "fwd$gamma unimp except at dx == 0!\n")

/-- Source `double fwd$pow$aFloat(double x, double e, double dx, double de)`:
throws unconditionally. -/
def fwd_pow_aFloat {α : Type} (_x _e _dx _de : α) : Except KsError α :=
  .error (.thrown "fwd$pow unimp!\n")

/-- Source `tuple<double,double> rev$pow$aFloat(double x, double e, double dr)`:
throws unconditionally. -/
def rev_pow_aFloat {α : Type} (_x _e _dr : α) : Except KsError (α × α) :=
  .error (.thrown "rev$pow unimp!\n")

/-- Source `tuple<> fwd$gt(double a, double b, double d$a, double d$b)`. -/
def fwd_gt {α : Type} (_a _b _d_a _d_b : α) : Except KsError Unit :=
  .ok ()

/-- Source `tuple<double,double> rev$gt(double a, double b, tuple<> d$r)`:
throws unconditionally. -/
def rev_gt {α : Type} (_a _b : α) (_d_r : Unit) : Except KsError (α × α) :=
  .error (.thrown "rev$gt unimp!\n")

/-- Source `double edef_example(double x)`. -/
def edef_example {α : Type} (x : α) : Except KsError α := .ok x

/-- Source `double fwd$edef_example(double x, double dx)`. -/
def fwd_edef_example {α : Type} (_x dx : α) : Except KsError α := .ok dx

/-- Source `double rev$edef_example(double x, double ddr)`. -/
def rev_edef_example {α : Type} (_x ddr : α) : Except KsError α := .ok ddr

/-- The values of a `double` as the comparison `>` of `imaximum` sees them:
an exact number or a NaN. -/
inductive NanScalar where
  /-- The value NaN, which no comparison relates to anything. -/
  | nan
  /-- The number `q`. -/
  | num (q : ℚ)
  deriving DecidableEq

/-- The comparison `a < b` of two doubles: the comparison of the numbers, and
`false` as soon as one side is NaN. -/
def NanScalar.blt : NanScalar → NanScalar → Bool
  | .num x, .num y => decide (x < y)
  | _, _ => false

/-- The comparison `a <= b` of two doubles: the comparison of the numbers, and
`false` as soon as one side is NaN. -/
def NanScalar.ble : NanScalar → NanScalar → Bool
  | .num x, .num y => decide (x ≤ y)
  | _, _ => false

instance : LT NanScalar := ⟨fun a b => NanScalar.blt a b = true⟩

instance : LE NanScalar := ⟨fun a b => NanScalar.ble a b = true⟩

instance : DecidableRel (fun a b : NanScalar => a < b) :=
  fun a b => inferInstanceAs (Decidable (NanScalar.blt a b = true))

instance : DecidableRel (fun a b : NanScalar => a ≤ b) :=
  fun a b => inferInstanceAs (Decidable (NanScalar.ble a b = true))

instance : Zero NanScalar := ⟨.num 0⟩

/-! ## Auxiliary lemmas -/

@[simp] theorem ok_bind {ε β γ : Type} (x : β) (f : β → Except ε γ) :
    (Except.ok x >>= f) = f x := rfl

@[simp] theorem error_bind {ε β γ : Type} (e : ε) (f : β → Except ε γ) :
    (Except.error e >>= f) = Except.error e := rfl

@[simp] theorem pure_eq_ok {ε β : Type} (x : β) :
    (pure x : Except ε β) = Except.ok x := rfl

theorem idx_of_lt {β : Type} (xs : List β) (i : Nat) (h : i < xs.length) :
    idx xs i = .ok (xs.get ⟨i, h⟩) := by
  simp [idx, List.getElem?_eq_getElem h]

theorem idx_of_le {β : Type} (xs : List β) (i : Nat) (h : xs.length ≤ i) :
    idx xs i = .error .outOfBounds := by
  simp [idx, List.getElem?_eq_none h]

theorem idx_getD {β : Type} (xs : List β) (i : Nat) (h : i < xs.length) (d : β) :
    idx xs i = .ok (xs.getD i d) := by
  simp [idx, List.getD, List.getElem?_eq_getElem h]

theorem setIdx_of_lt {β : Type} (xs : List β) (i : Nat) (x : β) (h : i < xs.length) :
    setIdx xs i x = .ok (xs.set i x) := by
  simp [setIdx, h]

/-- Hoare-style rule for `forLoop`: an invariant `P i s` that holds on entry
and is preserved by every iteration (each of which succeeds) holds on exit,
and the loop succeeds. -/
theorem forLoop_inv {σ : Type} (body : Nat → σ → Except KsError σ)
    (P : Nat → σ → Prop) (n : Nat) :
    ∀ (lo : Nat) (s : σ), P lo s →
      (∀ i t, lo ≤ i → i < lo + n → P i t → ∃ t1, body i t = .ok t1 ∧ P (i + 1) t1) →
      ∃ s1, forLoop body n lo s = .ok s1 ∧ P (lo + n) s1 := by
  induction n with
  | zero =>
    intro lo s h0 _
    exact ⟨s, rfl, by simpa using h0⟩
  | succ n ih =>
    intro lo s h0 hstep
    obtain ⟨t1, hb, hP⟩ := hstep lo s (Nat.le_refl _) (by omega) h0
    obtain ⟨s1, hl, hQ⟩ := ih (lo + 1) t1 hP (fun i t h1 h2 hPi =>
      hstep i t (by omega) (by omega) hPi)
    refine ⟨s1, ?_, ?_⟩
    · simp [forLoop, hb, hl]
    · have : lo + (n + 1) = lo + 1 + n := by omega
      rw [this]; exact hQ

/-- A loop `for (i = 0; i < r; ++i) ret[i] = g i` over a vector of `r` slots
returns the vector of the `g i`. -/
theorem forLoop_fill {β : Type} (body : Nat → List β → Except KsError (List β))
    (g : Nat → β) (r : Nat) (init : List β) (hinit : init.length = r)
    (hbody : ∀ i ret, i < r → ret.length = r → body i ret = .ok (ret.set i (g i))) :
    forLoop body r 0 init = .ok ((List.range r).map g) := by
  obtain ⟨s1, hl, hlen, hget⟩ := forLoop_inv body
    (fun i ret => ret.length = r ∧ ∀ k, k < i → ret[k]? = some (g k)) r 0 init
    ⟨hinit, by intro k hk; omega⟩
    (by
      intro i t _ hi ⟨hlen, hget⟩
      refine ⟨t.set i (g i), hbody i t (by omega) hlen, by simpa using hlen, ?_⟩
      intro k hk
      by_cases hki : k = i
      · subst hki
        simp [List.getElem?_set, hlen]
        omega
      · rw [List.getElem?_set_ne (Ne.symm hki)]
        exact hget k (by omega))
  rw [hl]
  congr 1
  apply List.ext_getElem?
  intro k
  by_cases hk : k < r
  · rw [hget k (by omega)]
    simp [List.getElem?_map, List.getElem?_range hk]
  · rw [List.getElem?_eq_none (by omega), List.getElem?_eq_none (by simp; omega)]

theorem dotSum_eq_sum {α : Type} [CommRing α] :
    ∀ (a b : List α), a.length = b.length →
      dotSum a b = ∑ j ∈ Finset.range b.length, a.getD j 0 * b.getD j 0
  | [], [], _ => by simp [dotSum]
  | [], _ :: _, h => by simp at h
  | _ :: _, [], h => by simp at h
  | x :: a, y :: b, h => by
    have ih := dotSum_eq_sum a b (by simpa using h)
    simp only [dotSum] at ih ⊢
    simp [Finset.sum_range_succ', ih, add_comm]

theorem dot_of_length_eq {α : Type} [Mul α] [Add α] [Zero α] (a b : List α)
    (h : a.length = b.length) : dot a b = .ok (dotSum a b) := by
  simp [dot, KS_ASSERT, h]

/-- Closed form of the primal kernel on a well-shaped matrix. -/
theorem mul_Mat_Vec_eq_map {α : Type} [CommRing α] (M : List (List α)) (v : List α)
    (hM : ∀ i, i < M.length → (M.getD i []).length = v.length) :
    mul_Mat_Vec M v = .ok ((List.range M.length).map (fun i => dotSum (M.getD i []) v)) := by
  unfold mul_Mat_Vec
  simp only [Nat.sub_zero]
  apply forLoop_fill
  · simp
  · intro i ret hi hlen
    rw [idx_getD M i hi [], ok_bind, dot_of_length_eq _ _ (hM i hi), ok_bind]
    exact setIdx_of_lt _ _ _ (by omega)

/-- The accumulation loop `for (j = 0; j < r; ++j) acc += f j` returns the
sum of the `f j`. -/
theorem forLoop_sum {α : Type} [CommRing α] (body : Nat → α → Except KsError α)
    (f : Nat → α) (r : Nat)
    (hbody : ∀ j acc, j < r → body j acc = .ok (acc + f j)) :
    forLoop body r 0 0 = .ok (∑ j ∈ Finset.range r, f j) := by
  obtain ⟨s1, hl, hs⟩ := forLoop_inv body
    (fun j acc => acc = ∑ k ∈ Finset.range j, f k) r 0 0 (by simp)
    (by
      intro j acc _ hj hacc
      refine ⟨acc + f j, hbody j acc (by omega), ?_⟩
      show acc + f j = ∑ k ∈ Finset.range (j + 1), f k
      rw [Finset.sum_range_succ, hacc])
  rw [hl, hs]
  simp

/-- Closed form of the reverse kernel on well-shaped arguments. -/
theorem rev_mul_Mat_Vec_eq_map {α : Type} [CommRing α] (M : List (List α))
    (v dr : List α) (hdr : dr.length = M.length)
    (hM : ∀ i, i < M.length → (M.getD i []).length = v.length) :
    rev_mul_Mat_Vec (M, v) dr = .ok
      ((List.range M.length).map (fun i => vscale v (dr.getD i 0)),
       (List.range v.length).map (fun j =>
          ∑ i ∈ Finset.range M.length, (M.getD i []).getD j 0 * dr.getD i 0)) := by
  unfold rev_mul_Mat_Vec
  simp only [Nat.sub_zero]
  have h1 : forLoop (fun i retM => do
        let dri ← idx dr i
        setIdx retM i (vscale v dri)) M.length 0 (List.replicate M.length [])
      = .ok ((List.range M.length).map (fun i => vscale v (dr.getD i 0))) := by
    apply forLoop_fill
    · simp
    · intro i ret hi hlen
      rw [idx_getD dr i (by omega) 0, ok_bind]
      exact setIdx_of_lt _ _ _ (by omega)
  have h2 : forLoop (fun i retv => do
        let retvi ← forLoop (fun j retvi => do
            let Mj ← idx M j
            let Mji ← idx Mj i
            let drj ← idx dr j
            pure (retvi + Mji * drj)) M.length 0 (0 : α)
        setIdx retv i retvi) v.length 0 (List.replicate v.length 0)
      = .ok ((List.range v.length).map (fun j =>
          ∑ i ∈ Finset.range M.length, (M.getD i []).getD j 0 * dr.getD i 0)) := by
    apply forLoop_fill
    · simp
    · intro i ret hi hlen
      rw [forLoop_sum _ (fun j => (M.getD j []).getD i 0 * dr.getD j 0) M.length, ok_bind]
      · exact setIdx_of_lt _ _ _ (by omega)
      · intro j acc hj
        rw [idx_getD M j hj [], ok_bind,
          idx_getD (M.getD j []) i (by rw [hM j hj]; exact hi) 0, ok_bind,
          idx_getD dr j (by omega) 0, ok_bind]
        rfl
  rw [h1, ok_bind, h2, ok_bind]
  rfl

theorem getD_map_range {β : Type} (g : Nat → β) (n i : Nat) (hi : i < n) (d : β) :
    ((List.range n).map g).getD i d = g i := by
  simp [List.getD, List.getElem?_map, List.getElem?_range hi]

theorem getD_vscale {α : Type} [CommRing α] (v : List α) (x : α) (j : Nat) :
    (vscale v x).getD j 0 = v.getD j 0 * x := by
  by_cases hj : j < v.length
  · simp [vscale, List.getD, List.getElem?_map, List.getElem?_eq_getElem hj]
  · simp [vscale, List.getD, List.getElem?_map, List.getElem?_eq_none (Nat.le_of_not_lt hj)]

/-- The algebraic core of the adjoint identity of the matrix-vector product. -/
theorem adjoint_sum_identity {α : Type} [CommRing α] (r c : Nat)
    (m dm : Nat → Nat → α) (w dw d : Nat → α) :
    ∑ i ∈ Finset.range r, d i *
        (∑ j ∈ Finset.range c, dm i j * w j + ∑ j ∈ Finset.range c, m i j * dw j)
      = ∑ i ∈ Finset.range r, ∑ j ∈ Finset.range c, w j * d i * dm i j
        + ∑ j ∈ Finset.range c, (∑ i ∈ Finset.range r, m i j * d i) * dw j := by
  simp only [mul_add, Finset.sum_add_distrib, Finset.mul_sum, Finset.sum_mul]
  congr 1
  · refine Finset.sum_congr rfl (fun i _ => Finset.sum_congr rfl (fun j _ => ?_))
    ring
  · rw [Finset.sum_comm]
    refine Finset.sum_congr rfl (fun j _ => Finset.sum_congr rfl (fun i _ => ?_))
    ring

theorem idx_eq_ok_iff {β : Type} (xs : List β) (i : Nat) (x : β) :
    idx xs i = .ok x ↔ xs[i]? = some x := by
  unfold idx
  cases h : xs[i]? with
  | none => simp
  | some y => simp

/-- The scan of `imaximum`: on a non-empty vector it returns an index `k`
together with the facts that make `k` the first occurrence of the greatest
element. -/
theorem imaximum_scan {α : Type} [LinearOrder α] (v : List α) (hv : 0 < v.length) :
    ∃ k vk, imaximum v = .ok k ∧ v[k]? = some vk ∧
      (∀ (j : Nat) (x : α), v[j]? = some x → x ≤ vk) ∧
      (∀ (j : Nat) (x : α), j < k → v[j]? = some x → x < vk) := by
  have h0 : v[0]? = some (v.get ⟨0, hv⟩) := by
    simp [List.getElem?_eq_getElem hv]
  obtain ⟨st, hl, hk, hle, hlt⟩ := forLoop_inv
    (fun i (st : Nat × α) => do
      let vi ← idx v i
      if vi > st.2 then
        let vmax ← idx v i
        pure (i, vmax)
      else
        pure st)
    (fun i (st : Nat × α) => v[st.1]? = some st.2 ∧
      (∀ j x, j < i → v[j]? = some x → x ≤ st.2) ∧
      (∀ j x, j < st.1 → v[j]? = some x → x < st.2))
    (v.length - 1) 1 (0, v.get ⟨0, hv⟩)
    ⟨h0, by
      intro j x hj hx
      have hj0 : j = 0 := by omega
      subst hj0
      rw [h0] at hx
      exact le_of_eq (Option.some.inj hx).symm, by
      intro j x hj _
      exact absurd hj (Nat.not_lt_zero j)⟩
    (by
      intro i st _ hi ⟨hk, hle, hlt⟩
      have hin : i < v.length := by omega
      have hvi : v[i]? = some (v.get ⟨i, hin⟩) := by
        simp [List.getElem?_eq_getElem hin]
      beta_reduce
      rw [idx_of_lt v i hin, ok_bind]
      by_cases hgt : v.get ⟨i, hin⟩ > st.2
      · refine ⟨(i, v.get ⟨i, hin⟩), by rw [if_pos hgt]; rfl, hvi, ?_, ?_⟩
        · intro j x hj hx
          by_cases hji : j = i
          · subst hji
            rw [hvi] at hx
            exact le_of_eq (Option.some.inj hx).symm
          · exact le_trans (hle j x (by omega) hx) (le_of_lt hgt)
        · intro j x hj hx
          exact lt_of_le_of_lt (hle j x hj hx) hgt
      · refine ⟨st, by rw [if_neg hgt]; rfl, hk, ?_, hlt⟩
        intro j x hj hx
        by_cases hji : j = i
        · subst hji
          rw [hvi] at hx
          rw [← Option.some.inj hx]
          exact le_of_not_lt hgt
        · exact hle j x (by omega) hx)
  refine ⟨st.1, st.2, ?_, hk, ?_, hlt⟩
  · unfold imaximum
    simp only [KS_ASSERT, gt_iff_lt, hv, decide_True, if_true, ok_bind,
      idx_of_lt v 0 hv]
    rw [hl]
    rfl
  · intro j x hx
    have hj : j < v.length := by
      by_contra hcon
      rw [List.getElem?_eq_none (Nat.le_of_not_lt hcon)] at hx
      exact Option.noConfusion hx
    exact hle j x (by omega) hx

theorem length_deltaVec {α : Type} [Zero α] (n i : Nat) (x : α) :
    (deltaVec n i x).length = n := by
  simp [deltaVec]

theorem getElem?_deltaVec {α : Type} [Zero α] (n i j : Nat) (x : α) (hj : j < n) :
    (deltaVec n i x)[j]? = some (if j = i then x else 0) := by
  simp [deltaVec, List.getElem?_map, List.getElem?_range hj]

theorem lt_length_of_getElem?_eq_some {β : Type} (xs : List β) (k : Nat) (x : β)
    (h : xs[k]? = some x) : k < xs.length := by
  by_contra hcon
  rw [List.getElem?_eq_none (Nat.le_of_not_lt hcon)] at h
  exact Option.noConfusion h

/-- On a non-empty vector `imaximum` returns an index of the vector, whatever
the comparison `<` is: neither the assertion nor an index check fails. -/
theorem imaximum_returns {α : Type} [LT α] [DecidableRel (fun a b : α => a < b)]
    (v : List α) (hv : 0 < v.length) :
    ∃ k, imaximum v = .ok k ∧ k < v.length := by
  obtain ⟨st, hl, hk⟩ := forLoop_inv
    (fun i (st : Nat × α) => do
      let vi ← idx v i
      if vi > st.2 then
        let vmax ← idx v i
        pure (i, vmax)
      else
        pure st)
    (fun _ (st : Nat × α) => st.1 < v.length)
    (v.length - 1) 1 (0, v.get ⟨0, hv⟩) hv
    (by
      intro i st _ hi hk
      have hin : i < v.length := by omega
      beta_reduce
      rw [idx_of_lt v i hin, ok_bind]
      by_cases hgt : v.get ⟨i, hin⟩ > st.2
      · exact ⟨(i, v.get ⟨i, hin⟩), by rw [if_pos hgt]; rfl, hin⟩
      · exact ⟨st, by rw [if_neg hgt]; rfl, hk⟩)
  refine ⟨st.1, ?_, hk⟩
  unfold imaximum
  simp only [KS_ASSERT, gt_iff_lt, hv, decide_True, if_true, ok_bind,
    idx_of_lt v 0 hv]
  rw [hl]
  rfl

theorem imaximum_nil {α : Type} [LT α] [DecidableRel (fun a b : α => a < b)] :
    imaximum ([] : List α) = .error (.assertion "size(v) > 0") := rfl

theorem maximum_nil {α : Type} [LT α] [DecidableRel (fun a b : α => a < b)] :
    maximum ([] : List α) = .error (.assertion "size(v) > 0") := rfl

/-- A loop whose iterations before `k` succeed and keep the invariant, and
whose iteration `k` fails with `e` under the invariant, fails with `e`. -/
theorem forLoop_fail {σ : Type} (body : Nat → σ → Except KsError σ)
    (P : Nat → σ → Prop) (e : KsError) (k : Nat) (n : Nat) :
    ∀ (lo : Nat) (s : σ), P lo s → lo ≤ k → k < lo + n →
      (∀ i t, lo ≤ i → i < k → P i t → ∃ t1, body i t = .ok t1 ∧ P (i + 1) t1) →
      (∀ t, P k t → body k t = .error e) →
      forLoop body n lo s = .error e := by
  induction n with
  | zero =>
    intro lo s _ h1 h2 _ _
    omega
  | succ n ih =>
    intro lo s h0 h1 h2 hstep hfail
    by_cases hk : lo = k
    · subst hk
      simp [forLoop, hfail s h0]
    · obtain ⟨t1, hb, hP⟩ := hstep lo s (Nat.le_refl _) (by omega) h0
      have hrec := ih (lo + 1) t1 hP (by omega) (by omega)
        (fun i t h3 h4 hPi => hstep i t (by omega) h4 hPi) hfail
      simp [forLoop, hb, hrec]

/-- Partial-correctness rule for `forLoop`: if the loop returns, an invariant
kept by every returning iteration holds of the returned state. -/
theorem forLoop_ok_inv {σ : Type} (body : Nat → σ → Except KsError σ)
    (P : Nat → σ → Prop) (n : Nat) :
    ∀ (lo : Nat) (s s1 : σ), P lo s →
      (∀ i t t1, lo ≤ i → i < lo + n → P i t → body i t = .ok t1 → P (i + 1) t1) →
      forLoop body n lo s = .ok s1 → P (lo + n) s1 := by
  induction n with
  | zero =>
    intro lo s s1 h0 _ h
    simp only [forLoop] at h
    cases h
    simpa using h0
  | succ n ih =>
    intro lo s s1 h0 hstep h
    simp only [forLoop] at h
    cases hb : body lo s with
    | error e =>
      rw [hb] at h
      exact Except.noConfusion h
    | ok t1 =>
      rw [hb] at h
      have hP := hstep lo s t1 (Nat.le_refl _) (by omega) h0 hb
      have hQ := ih (lo + 1) t1 s1 hP
        (fun i t t2 h1 h2 hPi hbi => hstep i t t2 (by omega) (by omega) hPi hbi) h
      have : lo + (n + 1) = lo + 1 + n := by omega
      rw [this]; exact hQ

/-- A loop throws a string only if its body does. -/
theorem forLoop_not_thrown {σ : Type} (body : Nat → σ → Except KsError σ)
    (hbody : ∀ i t msg, body i t ≠ .error (.thrown msg)) (n : Nat) :
    ∀ (lo : Nat) (s : σ) (msg : String), forLoop body n lo s ≠ .error (.thrown msg) := by
  induction n with
  | zero =>
    intro lo s msg h
    simp only [forLoop] at h
    exact Except.noConfusion h
  | succ n ih =>
    intro lo s msg h
    simp only [forLoop] at h
    cases hb : body lo s with
    | error e =>
      rw [hb] at h
      exact hbody lo s msg (by rw [hb]; exact h)
    | ok t1 =>
      rw [hb] at h
      exact ih (lo + 1) t1 msg h

theorem bind_eq_ok {ε β γ : Type} (x : Except ε β) (f : β → Except ε γ) (c : γ) :
    (x >>= f) = .ok c ↔ ∃ a, x = .ok a ∧ f a = .ok c := by
  cases x with
  | error e =>
    constructor
    · intro h
      exact Except.noConfusion h
    · rintro ⟨a, ha, _⟩
      exact Except.noConfusion ha
  | ok a =>
    constructor
    · intro h
      exact ⟨a, rfl, h⟩
    · rintro ⟨b, hb, hf⟩
      cases hb
      exact hf

theorem setIdx_eq_ok {β : Type} (xs ys : List β) (i : Nat) (x : β)
    (h : setIdx xs i x = .ok ys) : i < xs.length ∧ ys = xs.set i x := by
  unfold setIdx at h
  by_cases hi : i < xs.length
  · rw [if_pos hi] at h
    cases h
    exact ⟨hi, rfl⟩
  · rw [if_neg hi] at h
    exact Except.noConfusion h

theorem dot_of_length_ne {α : Type} [Mul α] [Add α] [Zero α] (a b : List α)
    (h : a.length ≠ b.length) : dot a b = .error (.assertion "size(a) == size(b)") := by
  simp [dot, KS_ASSERT, h]

theorem bind_not_thrown {β γ : Type} (x : Except KsError β) (f : β → Except KsError γ)
    (hx : ∀ msg, x ≠ .error (.thrown msg))
    (hf : ∀ a msg, f a ≠ .error (.thrown msg)) (msg : String) :
    (x >>= f) ≠ .error (.thrown msg) := by
  cases x with
  | error e =>
    intro h
    rw [error_bind] at h
    exact hx msg (congrArg Except.error (Except.error.inj h))
  | ok a => exact hf a msg

theorem ok_not_thrown {β : Type} (x : β) (msg : String) :
    (Except.ok x : Except KsError β) ≠ .error (.thrown msg) := by
  intro h
  exact Except.noConfusion h

theorem idx_not_thrown {β : Type} (xs : List β) (i : Nat) (msg : String) :
    idx xs i ≠ .error (.thrown msg) := by
  unfold idx
  cases xs[i]? with
  | none =>
    intro h
    exact KsError.noConfusion (Except.error.inj h)
  | some x => exact ok_not_thrown x msg

theorem setIdx_not_thrown {β : Type} (xs : List β) (i : Nat) (x : β) (msg : String) :
    setIdx xs i x ≠ .error (.thrown msg) := by
  unfold setIdx
  by_cases hi : i < xs.length
  · rw [if_pos hi]
    exact ok_not_thrown _ msg
  · rw [if_neg hi]
    intro h
    exact KsError.noConfusion (Except.error.inj h)

theorem dot_not_thrown {α : Type} [Mul α] [Add α] [Zero α] (a b : List α) (msg : String) :
    dot a b ≠ .error (.thrown msg) := by
  by_cases h : a.length = b.length
  · rw [dot_of_length_eq a b h]
    exact ok_not_thrown _ msg
  · rw [dot_of_length_ne a b h]
    intro h1
    exact KsError.noConfusion (Except.error.inj h1)

theorem mul_Mat_Vec_not_thrown {α : Type} [Mul α] [Add α] [Zero α] (M : List (List α)) (v : List α)
    (msg : String) : mul_Mat_Vec M v ≠ .error (.thrown msg) := by
  unfold mul_Mat_Vec
  simp only [Nat.sub_zero]
  apply forLoop_not_thrown
  intro i t m
  exact bind_not_thrown _ _ (idx_not_thrown M i) (fun Mi =>
    bind_not_thrown _ _ (dot_not_thrown Mi v) (fun d => setIdx_not_thrown t i d)) m

theorem rev_mul_Mat_Vec_not_thrown {α : Type} [Mul α] [Add α] [Zero α] (M : List (List α))
    (v dr : List α) (msg : String) : rev_mul_Mat_Vec (M, v) dr ≠ .error (.thrown msg) := by
  unfold rev_mul_Mat_Vec
  simp only [Nat.sub_zero]
  refine bind_not_thrown _ _ ?_ (fun retM => bind_not_thrown _ _ ?_
    (fun retv => ok_not_thrown _)) msg
  · apply forLoop_not_thrown
    intro i t m
    exact bind_not_thrown _ _ (idx_not_thrown dr i) (fun dri =>
      setIdx_not_thrown t i _) m
  · apply forLoop_not_thrown
    intro i t m
    refine bind_not_thrown _ _ ?_ (fun x => setIdx_not_thrown t i x) m
    apply forLoop_not_thrown
    intro j acc m1
    exact bind_not_thrown _ _ (idx_not_thrown M j) (fun Mj =>
      bind_not_thrown _ _ (idx_not_thrown Mj i) (fun Mji =>
        bind_not_thrown _ _ (idx_not_thrown dr j) (fun drj => ok_not_thrown _))) m1

theorem imaximum_not_thrown {α : Type} [LT α] [DecidableRel (fun a b : α => a < b)]
    (v : List α) (msg : String) : imaximum v ≠ .error (.thrown msg) := by
  by_cases hv : 0 < v.length
  · obtain ⟨k, hk, _⟩ := imaximum_returns v hv
    rw [hk]
    exact ok_not_thrown k msg
  · have : v = [] := List.length_eq_zero.mp (by omega)
    subst this
    rw [imaximum_nil]
    intro h
    exact KsError.noConfusion (Except.error.inj h)

theorem dotSum_deltaVec {α : Type} [CommRing α] (dv : List α) (k : Nat) (x : α)
    (hk : k < dv.length) :
    dotSum (deltaVec dv.length k x) dv = x * dv.getD k 0 := by
  rw [dotSum_eq_sum _ _ (length_deltaVec _ _ _), Finset.sum_eq_single k]
  · unfold deltaVec
    rw [getD_map_range _ _ _ hk, if_pos rfl]
  · intro j hj hjk
    unfold deltaVec
    rw [getD_map_range _ _ _ (Finset.mem_range.mp hj), if_neg hjk, zero_mul]
  · intro hnot
    exact absurd (Finset.mem_range.mpr hk) hnot

/-- The accumulation loop `for (j = 0; j < r; ++j) acc += f j`, started at
`z`, returns the `f j` added to `z` one after the other in index order; no
law of `+` is used. -/
theorem forLoop_foldl {α : Type} [Add α] (body : Nat → α → Except KsError α)
    (f : Nat → α) (r : Nat) (z : α)
    (hbody : ∀ j acc, j < r → body j acc = .ok (acc + f j)) :
    forLoop body r 0 z = .ok (((List.range r).map f).foldl (· + ·) z) := by
  obtain ⟨s1, hl, hs⟩ := forLoop_inv body
    (fun j acc => acc = ((List.range j).map f).foldl (· + ·) z) r 0 z (by simp)
    (by
      intro j acc _ hj hacc
      refine ⟨acc + f j, hbody j acc (by omega), ?_⟩
      show acc + f j = ((List.range (j + 1)).map f).foldl (· + ·) z
      rw [List.range_succ, List.map_append, List.foldl_append, ← hacc]
      rfl)
  rw [hl, hs]
  simp

/-- Closed form of the reverse kernel on well-shaped arguments, for any
scalar arithmetic: the entries of `retv` are accumulated from `0` in index
order. -/
theorem rev_mul_Mat_Vec_eq_fold {α : Type} [Mul α] [Add α] [Zero α] (M : List (List α))
    (v dr : List α) (hdr : dr.length = M.length)
    (hM : ∀ i, i < M.length → (M.getD i []).length = v.length) :
    rev_mul_Mat_Vec (M, v) dr = .ok
      ((List.range M.length).map (fun i => vscale v (dr.getD i 0)),
       (List.range v.length).map (fun j =>
          ((List.range M.length).map
            (fun i => (M.getD i []).getD j 0 * dr.getD i 0)).foldl (· + ·) 0)) := by
  unfold rev_mul_Mat_Vec
  simp only [Nat.sub_zero]
  have h1 : forLoop (fun i retM => do
        let dri ← idx dr i
        setIdx retM i (vscale v dri)) M.length 0 (List.replicate M.length [])
      = .ok ((List.range M.length).map (fun i => vscale v (dr.getD i 0))) := by
    apply forLoop_fill
    · simp
    · intro i ret hi hlen
      rw [idx_getD dr i (by omega) 0, ok_bind]
      exact setIdx_of_lt _ _ _ (by omega)
  have h2 : forLoop (fun i retv => do
        let retvi ← forLoop (fun j retvi => do
            let Mj ← idx M j
            let Mji ← idx Mj i
            let drj ← idx dr j
            pure (retvi + Mji * drj)) M.length 0 (0 : α)
        setIdx retv i retvi) v.length 0 (List.replicate v.length 0)
      = .ok ((List.range v.length).map (fun j =>
          ((List.range M.length).map
            (fun i => (M.getD i []).getD j 0 * dr.getD i 0)).foldl (· + ·) 0)) := by
    apply forLoop_fill
    · simp
    · intro i ret hi hlen
      rw [forLoop_foldl _ (fun j => (M.getD j []).getD i 0 * dr.getD j 0) M.length 0, ok_bind]
      · exact setIdx_of_lt _ _ _ (by omega)
      · intro j acc hj
        rw [idx_getD M j hj [], ok_bind,
          idx_getD (M.getD j []) i (by rw [hM j hj]; exact hi) 0, ok_bind,
          idx_getD dr j (by omega) 0, ok_bind]
        rfl
  rw [h1, ok_bind, h2, ok_bind]
  rfl

/-! ## Claims -/

/-- C1: for a matrix `M` of `r` rows each of length `c` and a vector `v` of
length `c`, `mul$Mat$Vec(M, v)` returns a vector of length exactly `r` whose
`i`-th entry, for every `i < r`, is `dot(M[i], v)`, that is the sum over
`j < c` of `M[i][j] * v[j]`; for `r = 0` it returns the empty vector. -/
theorem mul_Mat_Vec_correct {α : Type} [CommRing α] (M : List (List α)) (v : List α)
    (r c : Nat) (hr : M.length = r) (hc : v.length = c)
    (hM : ∀ i, i < r → (M.getD i []).length = c) :
    ∃ o, mul_Mat_Vec M v = .ok o ∧ o.length = r ∧
      (∀ i, i < r →
        dot (M.getD i []) v = .ok (o.getD i 0) ∧
        o.getD i 0 = ∑ j ∈ Finset.range c, (M.getD i []).getD j 0 * v.getD j 0) ∧
      (r = 0 → o = []) := by
  subst hr hc
  refine ⟨_, mul_Mat_Vec_eq_map M v hM, by simp, ?_, ?_⟩
  · intro i hi
    have hget : ((List.range M.length).map (fun i => dotSum (M.getD i []) v)).getD i 0
        = dotSum (M.getD i []) v := by
      simp [List.getD, List.getElem?_map, List.getElem?_range hi]
    rw [hget]
    exact ⟨dot_of_length_eq _ _ (hM i hi), dotSum_eq_sum _ _ (hM i hi)⟩
  · intro h0
    simp [h0]

/-- C1 at a concrete input: a `2 × 2` integer matrix. -/
theorem mul_Mat_Vec_correct_witness :
    ∃ o, mul_Mat_Vec [[1, 2], [3, 4]] [5, (6 : Int)] = .ok o ∧ o.length = 2 ∧
      (∀ i, i < 2 →
        dot (([[1, 2], [3, 4]] : List (List Int)).getD i []) [5, 6] = .ok (o.getD i 0) ∧
        o.getD i 0 = ∑ j ∈ Finset.range 2,
          (([[1, 2], [3, 4]] : List (List Int)).getD i []).getD j 0
            * ([5, 6] : List Int).getD j 0) ∧
      (2 = 0 → o = []) :=
  mul_Mat_Vec_correct [[1, 2], [3, 4]] [5, 6] 2 2 rfl rfl (by decide)

/-- Exact-arithmetic form of the reverse kernel: over a commutative ring the
entries of the adjoint of `v` are the sums `Σ_{i<r} M[i][j] * dr[i]`. -/
theorem rev_mul_Mat_Vec_exact_sum {α : Type} [CommRing α] (M : List (List α))
    (v dr : List α) (r c : Nat) (hr : M.length = r) (hc : v.length = c)
    (hdr : dr.length = r) (hM : ∀ i, i < r → (M.getD i []).length = c) :
    ∃ dM dv, rev_mul_Mat_Vec (M, v) dr = .ok (dM, dv) ∧
      dM.length = r ∧
      (∀ i, i < r → (dM.getD i []).length = c ∧
        ∀ j, j < c → (dM.getD i []).getD j 0 = v.getD j 0 * dr.getD i 0) ∧
      dv.length = c ∧
      (∀ j, j < c →
        dv.getD j 0 = ∑ i ∈ Finset.range r, (M.getD i []).getD j 0 * dr.getD i 0) := by
  subst hr hc
  refine ⟨_, _, rev_mul_Mat_Vec_eq_map M v dr hdr hM, by simp, ?_, by simp, ?_⟩
  · intro i hi
    have hrow : ((List.range M.length).map (fun i => vscale v (dr.getD i 0))).getD i []
        = vscale v (dr.getD i 0) := by
      simp [List.getD, List.getElem?_map, List.getElem?_range hi]
    rw [hrow]
    refine ⟨by simp [vscale], ?_⟩
    intro j hj
    simp [vscale, List.getD, List.getElem?_map, List.getElem?_eq_getElem hj]
  · intro j hj
    simp [List.getD, List.getElem?_map, List.getElem?_range hj]

/-- C2: for a matrix `M` of `r` rows each of length `c`, a vector `v` of
length `c` and an adjoint `dr` of length `r`, `rev$mul$Mat$Vec((M, v), dr)`
returns the pair `(dM, dv)`, adjoint of `M` first and adjoint of `v` second,
where `dM` has `r` rows with `dM[i][j] = v[j] * dr[i]` (the outer product of
`dr` and `v`) and `dv` has length `c` with `dv[j]` the sum over `i < r` of
`M[i][j] * dr[i]` (the transpose of `M` applied to `dr`).  The sum is the one
the loop computes, `0 + M[0][j]*dr[0] + ... + M[r-1][j]*dr[r-1]` added in
index order in the arithmetic of the scalars, whatever that arithmetic is
(no law of `+` or `*` is assumed, so rounding arithmetic is covered); over
exact numbers (a commutative ring) it is the sum `Σ_{i<r} M[i][j] * dr[i]`. -/
theorem rev_mul_Mat_Vec_correct {α : Type} [Mul α] [Add α] [Zero α] (M : List (List α))
    (v dr : List α) (r c : Nat) (hr : M.length = r) (hc : v.length = c)
    (hdr : dr.length = r) (hM : ∀ i, i < r → (M.getD i []).length = c) :
    (∃ dM dv, rev_mul_Mat_Vec (M, v) dr = .ok (dM, dv) ∧
      dM.length = r ∧
      (∀ i, i < r → (dM.getD i []).length = c ∧
        ∀ j, j < c → (dM.getD i []).getD j 0 = v.getD j 0 * dr.getD i 0) ∧
      dv.length = c ∧
      (∀ j, j < c →
        dv.getD j 0 = ((List.range r).map
          (fun i => (M.getD i []).getD j 0 * dr.getD i 0)).foldl (· + ·) 0)) ∧
    (∀ (β : Type) [CommRing β] (N : List (List β)) (w ds : List β),
      ds.length = N.length → (∀ i, i < N.length → (N.getD i []).length = w.length) →
      ∃ dN dw, rev_mul_Mat_Vec (N, w) ds = .ok (dN, dw) ∧
        (∀ i, i < N.length → ∀ j, j < w.length →
          (dN.getD i []).getD j 0 = w.getD j 0 * ds.getD i 0) ∧
        (∀ j, j < w.length →
          dw.getD j 0 = ∑ i ∈ Finset.range N.length, (N.getD i []).getD j 0 * ds.getD i 0)) := by
  refine ⟨?_, ?_⟩
  · subst hr hc
    refine ⟨_, _, rev_mul_Mat_Vec_eq_fold M v dr hdr hM, by simp, ?_, by simp, ?_⟩
    · intro i hi
      rw [getD_map_range _ _ _ hi]
      refine ⟨by simp [vscale], ?_⟩
      intro j hj
      simp [vscale, List.getD, List.getElem?_map, List.getElem?_eq_getElem hj]
    · intro j hj
      rw [getD_map_range _ _ _ hj]
  · intro β _ N w ds hds hN
    obtain ⟨dN, dw, hrev, _, hrows, _, hsum⟩ :=
      rev_mul_Mat_Vec_exact_sum N w ds N.length w.length rfl rfl hds hN
    exact ⟨dN, dw, hrev, fun i hi j hj => (hrows i hi).2 j hj, hsum⟩

/-- C2 at a concrete input: a `2 × 2` integer matrix, returning
`([[5, 6], [10, 12]], [7, 10])`. -/
theorem rev_mul_Mat_Vec_correct_witness :
    rev_mul_Mat_Vec ([[1, 2], [3, 4]], [5, (6 : Int)]) [1, 2]
        = .ok ([[5, 6], [10, 12]], [7, 10]) ∧
    ∃ dM dv, rev_mul_Mat_Vec ([[1, 2], [3, 4]], [5, (6 : Int)]) [1, 2] = .ok (dM, dv) ∧
      dM.length = 2 ∧
      (∀ i, i < 2 → (dM.getD i []).length = 2 ∧
        ∀ j, j < 2 → (dM.getD i []).getD j 0
          = ([5, 6] : List Int).getD j 0 * ([1, 2] : List Int).getD i 0) ∧
      dv.length = 2 ∧
      (∀ j, j < 2 →
        dv.getD j 0 = ((List.range 2).map
          (fun i => (([[1, 2], [3, 4]] : List (List Int)).getD i []).getD j 0
            * ([1, 2] : List Int).getD i 0)).foldl (· + ·) 0) :=
  ⟨by decide,
   (rev_mul_Mat_Vec_correct [[1, 2], [3, 4]] [5, 6] [1, 2] 2 2 rfl rfl rfl (by decide)).1⟩

/-- C3: `rev$mul$Mat$Vec` is the Jacobian-transpose-vector product of
`mul$Mat$Vec`.  For `r × c` matrices `M`, `dM`, length-`c` vectors `v`, `dv`
and a length-`r` adjoint `dr`, with `(aM, av) = rev$mul$Mat$Vec((M, v), dr)`:
`dot(dr, mul$Mat$Vec(dM, v) + mul$Mat$Vec(M, dv))
   = (Σ_{i<r} dot(aM[i], dM[i])) + dot(av, dv)`,
every call involved returning a value. -/
theorem rev_mul_Mat_Vec_adjoint {α : Type} [CommRing α] (M dM : List (List α))
    (v dv dr : List α) (r c : Nat)
    (hr : M.length = r) (hdr : dM.length = r) (hc : v.length = c) (hdc : dv.length = c)
    (hdrl : dr.length = r)
    (hM : ∀ i, i < r → (M.getD i []).length = c)
    (hdM : ∀ i, i < r → (dM.getD i []).length = c) :
    ∃ p1 p2 aM av lhs avdv,
      mul_Mat_Vec dM v = .ok p1 ∧ mul_Mat_Vec M dv = .ok p2 ∧
      rev_mul_Mat_Vec (M, v) dr = .ok (aM, av) ∧
      dot dr (List.zipWith (· + ·) p1 p2) = .ok lhs ∧
      (∀ i, i < r →
        dot (aM.getD i []) (dM.getD i []) = .ok (dotSum (aM.getD i []) (dM.getD i []))) ∧
      dot av dv = .ok avdv ∧
      lhs = (∑ i ∈ Finset.range r, dotSum (aM.getD i []) (dM.getD i [])) + avdv := by
  subst hr hc
  have e1 := mul_Mat_Vec_eq_map dM v (by rw [hdr]; exact hdM)
  have e2 := mul_Mat_Vec_eq_map M dv (by intro i hi; rw [hM i hi, hdc])
  have e3 := rev_mul_Mat_Vec_eq_map M v dr hdrl hM
  rw [hdr] at e1
  have hz : List.zipWith (· + ·)
        ((List.range M.length).map (fun i => dotSum (dM.getD i []) v))
        ((List.range M.length).map (fun i => dotSum (M.getD i []) dv))
      = (List.range M.length).map
          (fun i => dotSum (dM.getD i []) v + dotSum (M.getD i []) dv) := by
    apply List.ext_getElem?
    intro k
    by_cases hk : k < M.length
    · simp [List.getElem?_zipWith, List.getElem?_map, List.getElem?_range hk]
    · have hk1 : M.length ≤ k := Nat.le_of_not_lt hk
      simp [List.getElem?_zipWith, List.getElem?_map, List.getElem?_eq_none, hk1]
  have hrow : ∀ i, i < M.length →
      ((List.range M.length).map (fun i => vscale v (dr.getD i 0))).getD i []
        = vscale v (dr.getD i 0) := fun i hi => getD_map_range _ _ _ hi _
  refine ⟨_, _, _, _,
    dotSum dr (List.zipWith (· + ·)
      ((List.range M.length).map (fun i => dotSum (dM.getD i []) v))
      ((List.range M.length).map (fun i => dotSum (M.getD i []) dv))),
    dotSum ((List.range v.length).map (fun j =>
      ∑ i ∈ Finset.range M.length, (M.getD i []).getD j 0 * dr.getD i 0)) dv,
    e1, e2, e3, ?_, ?_, ?_, ?_⟩
  · exact dot_of_length_eq _ _ (by rw [hz]; simpa using hdrl)
  · intro i hi
    exact dot_of_length_eq _ _ (by rw [hrow i hi, hdM i hi]; simp [vscale])
  · exact dot_of_length_eq _ _ (by simp [hdc])
  · rw [hz, dotSum_eq_sum _ _ (by simpa using hdrl), dotSum_eq_sum _ _ (by simp [hdc])]
    simp only [List.length_map, List.length_range]
    rw [hdc]
    have hL : ∀ i ∈ Finset.range M.length,
        dr.getD i 0 * ((List.range M.length).map
            (fun i => dotSum (dM.getD i []) v + dotSum (M.getD i []) dv)).getD i 0
          = dr.getD i 0 * (∑ j ∈ Finset.range v.length, (dM.getD i []).getD j 0 * v.getD j 0
              + ∑ j ∈ Finset.range v.length, (M.getD i []).getD j 0 * dv.getD j 0) := by
      intro i hi
      have hi1 : i < M.length := Finset.mem_range.mp hi
      rw [getD_map_range _ _ _ hi1, dotSum_eq_sum _ _ (hdM i hi1),
        dotSum_eq_sum _ _ (by rw [hM i hi1, hdc]), hdc]
    have hR1 : ∀ i ∈ Finset.range M.length,
        dotSum (((List.range M.length).map (fun i => vscale v (dr.getD i 0))).getD i [])
            (dM.getD i [])
          = ∑ j ∈ Finset.range v.length, v.getD j 0 * dr.getD i 0 * (dM.getD i []).getD j 0 := by
      intro i hi
      have hi1 : i < M.length := Finset.mem_range.mp hi
      rw [hrow i hi1, dotSum_eq_sum _ _ (by rw [hdM i hi1]; simp [vscale]), hdM i hi1]
      exact Finset.sum_congr rfl (fun j _ => by rw [getD_vscale])
    have hR2 : ∀ j ∈ Finset.range v.length,
        ((List.range v.length).map (fun j =>
            ∑ i ∈ Finset.range M.length, (M.getD i []).getD j 0 * dr.getD i 0)).getD j 0
            * dv.getD j 0
          = (∑ i ∈ Finset.range M.length, (M.getD i []).getD j 0 * dr.getD i 0)
            * dv.getD j 0 := by
      intro j hj
      rw [getD_map_range _ _ _ (Finset.mem_range.mp hj)]
    rw [Finset.sum_congr rfl hL, Finset.sum_congr rfl hR1, Finset.sum_congr rfl hR2]
    exact adjoint_sum_identity M.length v.length
      (fun i j => (M.getD i []).getD j 0) (fun i j => (dM.getD i []).getD j 0)
      (fun j => v.getD j 0) (fun j => dv.getD j 0) (fun i => dr.getD i 0)

/-- C3 at a concrete input: `2 × 2` integer matrices. -/
theorem rev_mul_Mat_Vec_adjoint_witness :
    ∃ p1 p2 aM av lhs avdv,
      mul_Mat_Vec [[1, 0], [0, 1]] [5, (6 : Int)] = .ok p1 ∧
      mul_Mat_Vec [[1, 2], [3, (4 : Int)]] [1, 1] = .ok p2 ∧
      rev_mul_Mat_Vec ([[1, 2], [3, 4]], [5, (6 : Int)]) [1, 2] = .ok (aM, av) ∧
      dot [1, 2] (List.zipWith (· + ·) p1 p2) = .ok lhs ∧
      (∀ i, i < 2 →
        dot (aM.getD i []) (([[1, 0], [0, 1]] : List (List Int)).getD i [])
          = .ok (dotSum (aM.getD i []) (([[1, 0], [0, 1]] : List (List Int)).getD i []))) ∧
      dot av [1, 1] = .ok avdv ∧
      lhs = (∑ i ∈ Finset.range 2,
        dotSum (aM.getD i []) (([[1, 0], [0, 1]] : List (List Int)).getD i [])) + avdv :=
  rev_mul_Mat_Vec_adjoint [[1, 2], [3, 4]] [[1, 0], [0, 1]] [5, 6] [1, 1] [1, 2] 2 2
    rfl rfl rfl rfl rfl (by decide) (by decide)

/-- C4: for every non-empty vector `v` over a totally ordered scalar type,
`maximum(v) = v[k]` where `k = imaximum(v)` is the index of the first
occurrence of the greatest element: `k < size(v)`, `v[j] <= v[k]` for every
index `j`, and `v[j] < v[k]` for every `j < k`.  For `v = [3, 7, 2, 7]`,
`imaximum(v) = 1` and `maximum(v) = 7`. -/
theorem maximum_first_greatest {α : Type} [LinearOrder α] (v : List α) (hv : v ≠ []) :
    (∃ k vk, imaximum v = .ok k ∧ maximum v = .ok vk ∧ k < v.length ∧
      v[k]? = some vk ∧
      (∀ (j : Nat) (x : α), v[j]? = some x → x ≤ vk) ∧
      (∀ (j : Nat) (x : α), j < k → v[j]? = some x → x < vk)) ∧
    imaximum [3, 7, 2, (7 : ℚ)] = .ok 1 ∧ maximum [3, 7, 2, (7 : ℚ)] = .ok 7 := by
  refine ⟨?_, by decide, by decide⟩
  obtain ⟨k, vk, hi, hk, hle, hlt⟩ := imaximum_scan v (List.length_pos.mpr hv)
  refine ⟨k, vk, hi, ?_, ?_, hk, hle, hlt⟩
  · unfold maximum
    rw [hi, ok_bind]
    exact (idx_eq_ok_iff v k vk).mpr hk
  · by_contra hcon
    rw [List.getElem?_eq_none (Nat.le_of_not_lt hcon)] at hk
    exact Option.noConfusion hk

/-- C4 at the vector `[3, 7, 2, 7]` of the specification. -/
theorem maximum_first_greatest_witness :
    (∃ k vk, imaximum [3, 7, 2, (7 : ℚ)] = .ok k ∧ maximum [3, 7, 2, (7 : ℚ)] = .ok vk ∧
      k < ([3, 7, 2, 7] : List ℚ).length ∧
      ([3, 7, 2, 7] : List ℚ)[k]? = some vk ∧
      (∀ (j : Nat) (x : ℚ), ([3, 7, 2, 7] : List ℚ)[j]? = some x → x ≤ vk) ∧
      (∀ (j : Nat) (x : ℚ), j < k → ([3, 7, 2, 7] : List ℚ)[j]? = some x → x < vk)) ∧
    imaximum [3, 7, 2, (7 : ℚ)] = .ok 1 ∧ maximum [3, 7, 2, (7 : ℚ)] = .ok 7 :=
  maximum_first_greatest [3, 7, 2, 7] (by simp)

/-- C5, the claim as stated fails on a vector with a NaN: in `[NaN, 1]` no
comparison `v[i] > vmax` holds, so `imaximum` keeps index `0` and
`rev$maximum` puts the adjoint there, although `v[0]` is not the greatest
element (`v[1] <= v[0]` is false). -/
theorem rev_maximum_nan_index :
    imaximum [NanScalar.nan, NanScalar.num 1] = .ok 0 ∧
    (rev_maximum [NanScalar.nan, NanScalar.num 1] (NanScalar.num 1) []).1
      = .ok [NanScalar.num 1, NanScalar.num 0] ∧
    ¬ (NanScalar.num 1 ≤ NanScalar.nan) := by
  decide

/-- C5, amended: for every non-empty vector `v` and every scalar `dr`,
`rev$maximum(v, dr)` returns a vector of the same length as `v` whose entry
at index `k = imaximum(v)` is `dr` and whose every other entry is `0`, with
`deltaVec(n, i, x)` the length-`n` vector that is `x` at `i` and `0`
elsewhere; when the entries are totally ordered (no NaN), `k` is the first
occurrence of the greatest element.  For `v = [3, 7, 2, 7]` and `dr = 1` the
result is `[0, 1, 0, 0]`. -/
theorem rev_maximum_one_hot_at_imaximum {α : Type} [LT α]
    [DecidableRel (fun a b : α => a < b)] [Zero α]
    (v : List α) (dr : α) (cerr : List String) (hv : v ≠ []) :
    (∃ k out, imaximum v = .ok k ∧ k < v.length ∧
      (rev_maximum v dr cerr).1 = .ok out ∧
      out.length = v.length ∧
      out[k]? = some dr ∧
      (∀ (j : Nat), j < v.length → j ≠ k → out[j]? = some 0)) ∧
    (∀ (β : Type) [LinearOrder β] (w : List β), w ≠ [] →
      ∃ k wk, imaximum w = .ok k ∧ w[k]? = some wk ∧
        (∀ (j : Nat) (x : β), w[j]? = some x → x ≤ wk) ∧
        (∀ (j : Nat) (x : β), j < k → w[j]? = some x → x < wk)) ∧
    (rev_maximum [3, 7, 2, (7 : ℚ)] 1 cerr).1 = .ok [0, 1, 0, 0] := by
  refine ⟨?_, ?_, by simp only [rev_maximum]; decide⟩
  · obtain ⟨k, hi, hkl⟩ := imaximum_returns v (List.length_pos.mpr hv)
    refine ⟨k, deltaVec v.length k dr, hi, hkl, ?_, length_deltaVec _ _ _, ?_, ?_⟩
    · simp only [rev_maximum]
      rw [hi, ok_bind]
      rfl
    · rw [getElem?_deltaVec _ _ _ _ hkl, if_pos rfl]
    · intro j hj hjk
      rw [getElem?_deltaVec _ _ _ _ hj, if_neg hjk]
  · intro β _ w hw
    exact imaximum_scan w (List.length_pos.mpr hw)

/-- C5 amended, at the vector `[NaN, 1]` with adjoint `1`. -/
theorem rev_maximum_one_hot_at_imaximum_witness :
    ∃ k out, imaximum [NanScalar.nan, NanScalar.num 1] = .ok k ∧
      k < [NanScalar.nan, NanScalar.num 1].length ∧
      (rev_maximum [NanScalar.nan, NanScalar.num 1] (NanScalar.num 1) []).1 = .ok out ∧
      out.length = [NanScalar.nan, NanScalar.num 1].length ∧
      out[k]? = some (NanScalar.num 1) ∧
      (∀ (j : Nat), j < [NanScalar.nan, NanScalar.num 1].length → j ≠ k →
        out[j]? = some 0) :=
  (rev_maximum_one_hot_at_imaximum [NanScalar.nan, NanScalar.num 1] (NanScalar.num 1) []
    (by simp)).1

/-- C6, the claim as stated fails on a vector with a NaN: on `[NaN, 1]`
`fwd$maximum` returns the tangent component at index `0`, which is what
`imaximum` returns, although `v[0]` is not the greatest element
(`v[1] <= v[0]` is false). -/
theorem fwd_maximum_nan_index :
    imaximum [NanScalar.nan, NanScalar.num 1] = .ok 0 ∧
    (fwd_maximum [NanScalar.nan, NanScalar.num 1]
        [NanScalar.num 10, NanScalar.num 20] []).1 = .ok (NanScalar.num 10) ∧
    ¬ (NanScalar.num 1 ≤ NanScalar.nan) := by
  decide

/-- C6, amended: for every non-empty vector `v` and every tangent `dv` of the
same length, `fwd$maximum(v, dv)` returns `dv[k]` where `k = imaximum(v)`;
when the entries of `v` are totally ordered (no NaN), `k` is the index of the
first occurrence of the greatest element of `v`; the result depends on `dv`
only through its component at `k`, also when the maximum is attained at
several indices (as in `[3, 7, 2, 7]`, where the tangent `[10, 20, 30, 40]`
gives `20`). -/
theorem fwd_maximum_at_imaximum {α : Type} [LT α]
    [DecidableRel (fun a b : α => a < b)]
    (v dv : List α) (cerr : List String) (hv : v ≠ []) (hlen : dv.length = v.length) :
    (∃ k d, imaximum v = .ok k ∧ k < v.length ∧ dv[k]? = some d ∧
      (fwd_maximum v dv cerr).1 = .ok d ∧
      (∀ dv1 : List α, dv1.length = v.length → dv1[k]? = dv[k]? →
        (fwd_maximum v dv1 cerr).1 = (fwd_maximum v dv cerr).1)) ∧
    (∀ (β : Type) [LinearOrder β] (w : List β), w ≠ [] →
      ∃ k wk, imaximum w = .ok k ∧ w[k]? = some wk ∧
        (∀ (j : Nat) (x : β), w[j]? = some x → x ≤ wk) ∧
        (∀ (j : Nat) (x : β), j < k → w[j]? = some x → x < wk)) ∧
    (fwd_maximum [3, 7, 2, (7 : ℚ)] [10, 20, 30, 40] cerr).1 = .ok 20 := by
  refine ⟨?_, ?_, by simp only [fwd_maximum]; decide⟩
  · obtain ⟨k, hi, hkl⟩ := imaximum_returns v (List.length_pos.mpr hv)
    have hkd : k < dv.length := by omega
    have hd : dv[k]? = some (dv.get ⟨k, hkd⟩) := by
      simp [List.getElem?_eq_getElem hkd]
    have hf : ∀ (w : List α) (d : α), w[k]? = some d →
        (fwd_maximum v w cerr).1 = .ok d := by
      intro w d hw
      simp only [fwd_maximum]
      rw [hi, ok_bind]
      exact (idx_eq_ok_iff w k d).mpr hw
    refine ⟨k, dv.get ⟨k, hkd⟩, hi, hkl, hd, hf dv _ hd, ?_⟩
    intro dv1 _ h1
    rw [hf dv _ hd, hf dv1 _ (h1.trans hd)]
  · intro β _ w hw
    exact imaximum_scan w (List.length_pos.mpr hw)

/-- C6 amended, at the vector `[NaN, 1]` with tangent `[10, 20]`. -/
theorem fwd_maximum_at_imaximum_witness :
    ∃ k d, imaximum [NanScalar.nan, NanScalar.num 1] = .ok k ∧
      k < [NanScalar.nan, NanScalar.num 1].length ∧
      [NanScalar.num 10, NanScalar.num 20][k]? = some d ∧
      (fwd_maximum [NanScalar.nan, NanScalar.num 1]
        [NanScalar.num 10, NanScalar.num 20] []).1 = .ok d ∧
      (∀ dv1 : List NanScalar, dv1.length = [NanScalar.nan, NanScalar.num 1].length →
        dv1[k]? = [NanScalar.num 10, NanScalar.num 20][k]? →
        (fwd_maximum [NanScalar.nan, NanScalar.num 1] dv1 []).1
          = (fwd_maximum [NanScalar.nan, NanScalar.num 1]
              [NanScalar.num 10, NanScalar.num 20] []).1) :=
  (fwd_maximum_at_imaximum [NanScalar.nan, NanScalar.num 1]
    [NanScalar.num 10, NanScalar.num 20] [] (by simp) rfl).1

/-- C7: `maximum(v)` fails with a precondition (assertion) error if and
only if `v` is empty: `maximum([])` fails on `KS_ASSERT(size(v) > 0)`, and
for a non-empty `v`, and only then, both `imaximum(v)` and `maximum(v)`
return a value, so that no assertion or out-of-bounds failure occurs. -/
theorem maximum_fails_iff_empty {α : Type} [LinearOrder α] (v : List α) :
    maximum ([] : List α) = .error (.assertion "size(v) > 0") ∧
    ((∃ e, maximum v = .error e) ↔ v = []) ∧
    (maximum v = .error (.assertion "size(v) > 0") ↔ v = []) ∧
    ((∃ k x, imaximum v = .ok k ∧ maximum v = .ok x) ↔ v ≠ []) := by
  have hne : v ≠ [] → ∃ k x, imaximum v = .ok k ∧ maximum v = .ok x := by
    intro hv
    obtain ⟨k, vk, hi, hk, _, _⟩ := imaximum_scan v (List.length_pos.mpr hv)
    refine ⟨k, vk, hi, ?_⟩
    unfold maximum
    rw [hi, ok_bind]
    exact (idx_eq_ok_iff v k vk).mpr hk
  refine ⟨maximum_nil, ⟨?_, ?_⟩, ⟨?_, ?_⟩, ⟨?_, hne⟩⟩
  · rintro ⟨e, he⟩
    by_contra hv
    obtain ⟨k, x, _, hx⟩ := hne hv
    rw [hx] at he
    exact Except.noConfusion he
  · intro hv
    subst hv
    exact ⟨_, maximum_nil⟩
  · intro he
    by_contra hv
    obtain ⟨k, x, _, hx⟩ := hne hv
    rw [hx] at he
    exact Except.noConfusion he
  · intro hv
    subst hv
    exact maximum_nil
  · rintro ⟨k, x, _, hx⟩ hv
    subst hv
    rw [maximum_nil] at hx
    exact Except.noConfusion hx

/-- C8: `fwd$lgamma(x, dx)` returns a value if and only if `dx` is exactly
zero: `fwd$lgamma(x, 0) = 0` for every `x`, and for every `dx ≠ 0`, and only
then, it throws the not-implemented string and returns no value. -/
theorem fwd_lgamma_zero_tangent_only {α : Type} [Zero α] [DecidableEq α] (x dx : α) :
    fwd_lgamma x 0 = .ok 0 ∧
    ((∃ y, fwd_lgamma x dx = .ok y) ↔ dx = 0) ∧
    (fwd_lgamma x dx = .error (.thrown "fwd$gamma unimp except at dx == 0!\n") ↔ dx ≠ 0) ∧
    (fwd_lgamma x dx = .ok 0 ∨
      fwd_lgamma x dx = .error (.thrown "fwd$gamma unimp except at dx == 0!\n")) := by
  by_cases h : dx = 0
  · subst h
    simp [fwd_lgamma]
  · simp [fwd_lgamma, h]

/-- C9: `digamma(x)` throws the not-implemented string for every `x`, and
`rev$lgamma(x, dr)` throws it for every `x` and every `dr`, `dr = 0`
included; neither ever returns a value. -/
theorem digamma_rev_lgamma_unimplemented {α : Type} [Zero α] (x dr : α) :
    digamma x = .error (.thrown "digamma unimp!\n") ∧
    (∀ y, digamma x ≠ .ok y) ∧
    rev_lgamma x dr = .error (.thrown "rev$gamma unimp!\n") ∧
    rev_lgamma x 0 = .error (.thrown "rev$gamma unimp!\n") ∧
    (∀ y, rev_lgamma x dr ≠ .ok y) := by
  refine ⟨rfl, ?_, rfl, rfl, ?_⟩
  · intro y h
    exact Except.noConfusion h
  · intro y h
    exact Except.noConfusion h

/-- C10: the reserved derivative slots of Power and GreaterThan never return
a value: for all scalar arguments, zero tangents and adjoints included,
`fwd$pow$aFloat(x, e, dx, de)`, `rev$pow$aFloat(x, e, dr)` and
`rev$gt(a, b, ())` each throw their not-implemented string. -/
theorem pow_gt_slots_unimplemented {α : Type} [Zero α] (x e dx de dr a b : α) :
    fwd_pow_aFloat x e dx de = .error (.thrown "fwd$pow unimp!\n") ∧
    (∀ y, fwd_pow_aFloat x e dx de ≠ .ok y) ∧
    fwd_pow_aFloat x e 0 0 = .error (.thrown "fwd$pow unimp!\n") ∧
    rev_pow_aFloat x e dr = .error (.thrown "rev$pow unimp!\n") ∧
    (∀ y, rev_pow_aFloat x e dr ≠ .ok y) ∧
    rev_pow_aFloat x e 0 = .error (.thrown "rev$pow unimp!\n") ∧
    rev_gt a b () = .error (.thrown "rev$gt unimp!\n") ∧
    (∀ y, rev_gt a b () ≠ .ok y) := by
  refine ⟨rfl, ?_, rfl, rfl, ?_, rfl, rfl, ?_⟩ <;>
  · intro y h
    exact Except.noConfusion h

/-- C11: for all scalars `a`, `b` and all tangents `d$a`, `d$b`,
`fwd$gt(a, b, d$a, d$b)` returns the empty tuple and never fails; its result
is the same for every choice of the four arguments. -/
theorem fwd_gt_empty_tangent {α : Type} (a b d_a d_b : α) :
    fwd_gt a b d_a d_b = .ok () ∧
    (∀ e, fwd_gt a b d_a d_b ≠ .error e) ∧
    (∀ a1 b1 d_a1 d_b1 : α, fwd_gt a1 b1 d_a1 d_b1 = fwd_gt a b d_a d_b) := by
  refine ⟨rfl, ?_, fun _ _ _ _ => rfl⟩
  intro e h
  exact Except.noConfusion h

/-- C12: for all equal-length vectors `a` and `b`, `dotv(a, b)` is the sum
over every index `i` of `a[i] * b[i]` (`0` for two empty vectors), with the
collaborator `dot` being that sum and failing when the lengths differ; `dotv`
returns exactly what `dot` returns, value or failure, on every input. -/
theorem dotv_eq_sum {α : Type} [CommRing α] (a b : List α) (h : a.length = b.length) :
    dotv a b = .ok (∑ i ∈ Finset.range b.length, a.getD i 0 * b.getD i 0) ∧
    dotv ([] : List α) [] = .ok 0 ∧
    (∀ a1 b1 : List α, dotv a1 b1 = dot a1 b1) ∧
    (∀ a1 b1 : List α, a1.length ≠ b1.length →
      dotv a1 b1 = .error (.assertion "size(a) == size(b)")) := by
  refine ⟨?_, ?_, fun _ _ => rfl, ?_⟩
  · unfold dotv
    rw [dot_of_length_eq a b h, dotSum_eq_sum a b h]
  · simp [dotv, dot, KS_ASSERT, dotSum]
  · intro a1 b1 hne
    simp [dotv, dot, KS_ASSERT, hne]

/-- C12 at two integer vectors of length three. -/
theorem dotv_eq_sum_witness :
    dotv [1, 2, (3 : Int)] [4, 5, 6]
      = .ok (∑ i ∈ Finset.range ([4, 5, 6] : List Int).length,
          ([1, 2, 3] : List Int).getD i 0 * ([4, 5, 6] : List Int).getD i 0) ∧
    dotv ([] : List Int) [] = .ok 0 ∧
    (∀ a1 b1 : List Int, dotv a1 b1 = dot a1 b1) ∧
    (∀ a1 b1 : List Int, a1.length ≠ b1.length →
      dotv a1 b1 = .error (.assertion "size(a) == size(b)")) :=
  dotv_eq_sum [1, 2, 3] [4, 5, 6] rfl

/-- C13: the `edef_example` triad is the identity with identity Jacobian:
`edef_example(x) = x`, `fwd$edef_example(x, dx) = dx` and
`rev$edef_example(x, ddr) = ddr`; the forward and reverse results do not
depend on `x`, and none of the three fails. -/
theorem edef_example_identity {α : Type} (x dx ddr : α) :
    edef_example x = .ok x ∧
    fwd_edef_example x dx = .ok dx ∧
    rev_edef_example x ddr = .ok ddr ∧
    (∀ x1 : α, fwd_edef_example x1 dx = fwd_edef_example x dx) ∧
    (∀ x1 : α, rev_edef_example x1 ddr = rev_edef_example x ddr) ∧
    (∀ e, edef_example x ≠ .error e ∧ fwd_edef_example x dx ≠ .error e ∧
      rev_edef_example x ddr ≠ .error e) := by
  refine ⟨rfl, rfl, rfl, fun _ => rfl, fun _ => rfl, ?_⟩
  intro e
  refine ⟨?_, ?_, ?_⟩ <;>
  · intro h
    exact Except.noConfusion h

/-- C14: with `std::cerr` as an explicit log, every call of `fwd$maximum`
appends exactly the marker `[fwd$maximum untested]` and every call of
`rev$maximum` exactly `[rev$maximum untested]`, whether the call then returns
or fails its precondition (as on the empty vector); what was in the log stays
in front unchanged, and the returned value or failure is the same for every
prior log content. -/
theorem maximum_markers {α : Type} [LinearOrder α] [Zero α] (v dv : List α) (dr : α)
    (cerr cerr1 : List String) :
    (fwd_maximum v dv cerr).2 = cerr ++ ["[fwd$maximum untested]"] ∧
    (rev_maximum v dr cerr).2 = cerr ++ ["[rev$maximum untested]"] ∧
    (fwd_maximum v dv cerr).1 = (fwd_maximum v dv cerr1).1 ∧
    (rev_maximum v dr cerr).1 = (rev_maximum v dr cerr1).1 ∧
    fwd_maximum ([] : List α) dv cerr
      = (.error (.assertion "size(v) > 0"), cerr ++ ["[fwd$maximum untested]"]) ∧
    rev_maximum ([] : List α) dr cerr
      = (.error (.assertion "size(v) > 0"), cerr ++ ["[rev$maximum untested]"]) ∧
    (fwd_maximum [3, 7, 2, (7 : ℚ)] [10, 20, 30, 40] cerr
      = (.ok 20, cerr ++ ["[fwd$maximum untested]"])) ∧
    (rev_maximum [3, 7, 2, (7 : ℚ)] 1 cerr
      = (.ok [0, 1, 0, 0], cerr ++ ["[rev$maximum untested]"])) := by
  refine ⟨rfl, rfl, rfl, rfl, rfl, rfl, ?_, ?_⟩
  · have h : (fwd_maximum [3, 7, 2, (7 : ℚ)] [10, 20, 30, 40] cerr).1 = .ok 20 := by
      simp only [fwd_maximum]; decide
    exact Prod.ext h rfl
  · have h : (rev_maximum [3, 7, 2, (7 : ℚ)] 1 cerr).1 = .ok [0, 1, 0, 0] := by
      simp only [rev_maximum]; decide
    exact Prod.ext h rfl

/-- C15, the claim as stated fails: an adjoint longer than the number of
rows is accepted.  With a `1 × 1` matrix and `dr` of length two the call
returns the adjoints computed from `dr[0]`. -/
theorem rev_mul_Mat_Vec_long_dr_accepted :
    ([1, 2] : List Int).length ≠ ([[1]] : List (List Int)).length ∧
    rev_mul_Mat_Vec ([[1]], [(1 : Int)]) [1, 2] = .ok ([[1]], [1]) := by
  decide

/-- C15, amended: `rev$mul$Mat$Vec` rejects an adjoint that is too short.
For every bundle `(M, v)` and every `dr` with fewer entries than `M` has
rows, the call fails with a bounds-checked index failure (reading
`dr[size(dr)]` in the first loop) and returns no adjoints. -/
theorem rev_mul_Mat_Vec_short_dr_fails {α : Type} [CommRing α] (M : List (List α))
    (v dr : List α) (hdr : dr.length < M.length) :
    rev_mul_Mat_Vec (M, v) dr = .error .outOfBounds ∧
    (∀ out, rev_mul_Mat_Vec (M, v) dr ≠ .ok out) := by
  have h1 : forLoop (fun i retM => do
        let dri ← idx dr i
        setIdx retM i (vscale v dri)) M.length 0 (List.replicate M.length [])
      = .error .outOfBounds := by
    apply forLoop_fail _ (fun _ (ret : List (List α)) => ret.length = M.length)
      .outOfBounds dr.length M.length 0 _ (by simp) (Nat.zero_le _) (by omega)
    · intro i t _ hi hlen
      refine ⟨t.set i (vscale v (dr.getD i 0)), ?_, by simpa using hlen⟩
      beta_reduce
      rw [idx_getD dr i hi 0, ok_bind]
      exact setIdx_of_lt _ _ _ (by omega)
    · intro t _
      beta_reduce
      rw [idx_of_le dr dr.length (Nat.le_refl _), error_bind]
  have h : rev_mul_Mat_Vec (M, v) dr = .error .outOfBounds := by
    unfold rev_mul_Mat_Vec
    simp only [Nat.sub_zero]
    rw [h1, error_bind]
  refine ⟨h, ?_⟩
  intro out hout
  rw [h] at hout
  exact Except.noConfusion hout

/-- C15 amended, at a `2 × 1` integer matrix with an adjoint of length one. -/
theorem rev_mul_Mat_Vec_short_dr_fails_witness :
    rev_mul_Mat_Vec ([[1], [2]], [(3 : Int)]) [4] = .error .outOfBounds ∧
    (∀ out, rev_mul_Mat_Vec ([[1], [2]], [(3 : Int)]) [4] ≠ .ok out) :=
  rev_mul_Mat_Vec_short_dr_fails [[1], [2]] [3] [4] (by decide)

/-- C16: `mul$Mat$Vec` treats mismatched lengths as a fatal precondition
violation.  For every matrix `M` having at least one row whose length differs
from the length of `v`, the call fails with the length assertion of `dot`
and returns no vector, partially computed or otherwise. -/
theorem mul_Mat_Vec_mismatch_fails {α : Type} [CommRing α] (M : List (List α))
    (v : List α) (h : ∃ i, i < M.length ∧ (M.getD i []).length ≠ v.length) :
    mul_Mat_Vec M v = .error (.assertion "size(a) == size(b)") ∧
    (∀ out, mul_Mat_Vec M v ≠ .ok out) := by
  classical
  have hk := Nat.find_spec h
  have hmin : ∀ i, i < Nat.find h → i < M.length → (M.getD i []).length = v.length := by
    intro i hi hil
    by_contra hne
    exact Nat.find_min h hi ⟨hil, hne⟩
  have hfail : mul_Mat_Vec M v = .error (.assertion "size(a) == size(b)") := by
    unfold mul_Mat_Vec
    simp only [Nat.sub_zero]
    apply forLoop_fail _ (fun _ (ret : List α) => ret.length = M.length)
      _ (Nat.find h) M.length 0 _ (by simp) (Nat.zero_le _) (by omega)
    · intro i t _ hi hlen
      have hil : i < M.length := by omega
      refine ⟨t.set i (dotSum (M.getD i []) v), ?_, by simpa using hlen⟩
      beta_reduce
      rw [idx_getD M i hil [], ok_bind, dot_of_length_eq _ _ (hmin i hi hil), ok_bind]
      exact setIdx_of_lt _ _ _ (by omega)
    · intro t _
      beta_reduce
      rw [idx_getD M _ hk.1 [], ok_bind, dot_of_length_ne _ _ hk.2, error_bind]
  refine ⟨hfail, ?_⟩
  intro out hout
  rw [hfail] at hout
  exact Except.noConfusion hout

/-- C16 at an integer matrix whose second row is too long. -/
theorem mul_Mat_Vec_mismatch_fails_witness :
    mul_Mat_Vec [[1, 2], [3, 4, 5]] [6, (7 : Int)]
      = .error (.assertion "size(a) == size(b)") ∧
    (∀ out, mul_Mat_Vec [[1, 2], [3, 4, 5]] [6, (7 : Int)] ≠ .ok out) :=
  mul_Mat_Vec_mismatch_fails [[1, 2], [3, 4, 5]] [6, 7] ⟨1, by decide, by decide⟩

/-- C17, the claim as stated fails: on a matrix whose row is longer than `v`
the call returns, and the row of the returned adjoint has the length of `v`,
not of the row of `M`. -/
theorem rev_mul_Mat_Vec_long_row_shape :
    rev_mul_Mat_Vec ([[1, 2, 3]], [(1 : Int)]) [1] = .ok ([[1]], [1]) ∧
    (([[1]] : List (List Int)).getD 0 []).length
      ≠ (([[1, 2, 3]] : List (List Int)).getD 0 []).length := by
  decide

/-- C17, amended: for every bundle `(M, v)` and adjoint `dr` on which
`rev$mul$Mat$Vec` returns `(aM, av)`, `aM` has the same number of rows as
`M`, each row `aM[i]` has the length of `v` (hence the length of `M[i]`
whenever that row has `size(v)` entries), and `av` has the same length as
`v`. -/
theorem rev_mul_Mat_Vec_shape {α : Type} [CommRing α] (M aM : List (List α))
    (v dr av : List α) (h : rev_mul_Mat_Vec (M, v) dr = .ok (aM, av)) :
    aM.length = M.length ∧
    (∀ i, i < M.length → (aM.getD i []).length = v.length) ∧
    (∀ i, i < M.length → (M.getD i []).length = v.length →
      (aM.getD i []).length = (M.getD i []).length) ∧
    av.length = v.length := by
  unfold rev_mul_Mat_Vec at h
  simp only [Nat.sub_zero] at h
  obtain ⟨retM, h1, h⟩ := (bind_eq_ok _ _ _).mp h
  obtain ⟨retv, h2, h3⟩ := (bind_eq_ok _ _ _).mp h
  have h4 : (retM, retv) = (aM, av) := Except.ok.inj h3
  obtain ⟨hM1, hM2⟩ := forLoop_ok_inv _
    (fun i (ret : List (List α)) => ret.length = M.length ∧
      ∀ k, k < i → (ret.getD k []).length = v.length)
    M.length 0 _ retM ⟨by simp, by intro k hk; omega⟩
    (by
      intro i t t1 _ _ ⟨hlen, hrows⟩ hb
      obtain ⟨dri, _, hset⟩ := (bind_eq_ok _ _ _).mp hb
      obtain ⟨hi, ht1⟩ := setIdx_eq_ok _ _ _ _ hset
      subst ht1
      refine ⟨by simpa using hlen, ?_⟩
      intro k hk
      by_cases hki : k = i
      · subst hki
        simp [List.getD, List.getElem?_set, hi, vscale]
      · have := hrows k (by omega)
        simpa [List.getD, List.getElem?_set_ne (Ne.symm hki)] using this)
    h1
  have hv : retv.length = v.length := forLoop_ok_inv _
    (fun _ (ret : List α) => ret.length = v.length)
    v.length 0 _ retv (by simp)
    (by
      intro i t t1 _ _ hlen hb
      obtain ⟨x, _, hset⟩ := (bind_eq_ok _ _ _).mp hb
      obtain ⟨_, ht1⟩ := setIdx_eq_ok _ _ _ _ hset
      subst ht1
      simpa using hlen)
    h2
  have hA : retM = aM := congrArg Prod.fst h4
  have hB : retv = av := congrArg Prod.snd h4
  subst hA hB
  refine ⟨hM1, ?_, ?_, hv⟩
  · intro i hi
    exact hM2 i (by omega)
  · intro i hi hrow
    rw [hM2 i (by omega), hrow]

/-- C17 amended, at a returning call on a `2 × 2` integer matrix. -/
theorem rev_mul_Mat_Vec_shape_witness :
    ([[5, 6], [10, 12]] : List (List Int)).length = ([[1, 2], [3, 4]] : List (List Int)).length ∧
    (∀ i, i < ([[1, 2], [3, 4]] : List (List Int)).length →
      (([[5, 6], [10, 12]] : List (List Int)).getD i []).length = ([5, 6] : List Int).length) ∧
    (∀ i, i < ([[1, 2], [3, 4]] : List (List Int)).length →
      (([[1, 2], [3, 4]] : List (List Int)).getD i []).length = ([5, 6] : List Int).length →
      (([[5, 6], [10, 12]] : List (List Int)).getD i []).length
        = (([[1, 2], [3, 4]] : List (List Int)).getD i []).length) ∧
    ([7, 10] : List Int).length = ([5, 6] : List Int).length :=
  rev_mul_Mat_Vec_shape [[1, 2], [3, 4]] [[5, 6], [10, 12]] [5, 6] [1, 2] [7, 10]
    (by decide)

/-- C18: the six unimplemented entries `digamma`, `rev$lgamma`, `fwd$lgamma`
(at `dx ≠ 0`), `fwd$pow$aFloat`, `rev$pow$aFloat` and `rev$gt` raise six
errors, one per entry and the same at all arguments, that are pairwise
distinct values, so that an error of one entry is never raised by another
entry at any arguments; none of them is the assertion failure raised by
`imaximum` on the empty vector, as a value and also by its text; and no
implemented entry of the prelude (`dotv`, `mul$Mat$Vec`, `rev$mul$Mat$Vec`,
`imaximum`, `maximum`, `fwd$maximum`, `rev$maximum`, `fwd$gt`, the
`edef_example` triad, `fwd$lgamma` at `dx = 0`) ever throws a string. -/
theorem unimplemented_errors_distinct (α : Type) [Mul α] [Add α] [Zero α] [LT α]
    [DecidableRel (fun a b : α => a < b)] [DecidableEq α] :
    ∃ m1 m2 m3 m4 m5 m6 : String,
      [KsError.thrown m1, KsError.thrown m2, KsError.thrown m3, KsError.thrown m4,
        KsError.thrown m5, KsError.thrown m6].Nodup ∧
      (∀ x : α, digamma x = .error (.thrown m1)) ∧
      (∀ x dr : α, rev_lgamma x dr = .error (.thrown m2)) ∧
      (∀ x dx : α, dx ≠ 0 → fwd_lgamma x dx = .error (.thrown m3)) ∧
      (∀ x e dx de : α, fwd_pow_aFloat x e dx de = .error (.thrown m4)) ∧
      (∀ x e dr : α, rev_pow_aFloat x e dr = .error (.thrown m5)) ∧
      (∀ a b : α, rev_gt a b () = .error (.thrown m6)) ∧
      imaximum ([] : List α) = .error (.assertion "size(v) > 0") ∧
      (∀ m, m ∈ [m1, m2, m3, m4, m5, m6] →
        KsError.thrown m ≠ .assertion "size(v) > 0" ∧ m ≠ "size(v) > 0") ∧
      (∀ (msg : String) (x dx dr a b d_a d_b : α) (M : List (List α)) (v w : List α)
          (cerr : List String),
        dotv v w ≠ .error (.thrown msg) ∧
        mul_Mat_Vec M v ≠ .error (.thrown msg) ∧
        rev_mul_Mat_Vec (M, v) w ≠ .error (.thrown msg) ∧
        imaximum v ≠ .error (.thrown msg) ∧
        maximum v ≠ .error (.thrown msg) ∧
        (fwd_maximum v w cerr).1 ≠ .error (.thrown msg) ∧
        (rev_maximum v dr cerr).1 ≠ .error (.thrown msg) ∧
        fwd_gt a b d_a d_b ≠ .error (.thrown msg) ∧
        edef_example x ≠ .error (.thrown msg) ∧
        fwd_edef_example x dx ≠ .error (.thrown msg) ∧
        rev_edef_example x dr ≠ .error (.thrown msg) ∧
        fwd_lgamma x 0 ≠ .error (.thrown msg)) := by
  refine ⟨"digamma unimp!\n", "rev$gamma unimp!\n",
    "fwd$gamma unimp except at dx == 0!\n", "fwd$pow unimp!\n",
    "rev$pow unimp!\n", "rev$gt unimp!\n",
    by decide, fun _ => rfl, fun _ _ => rfl, ?_, fun _ _ _ _ => rfl, fun _ _ _ => rfl,
    fun _ _ => rfl, imaximum_nil, by decide, ?_⟩
  · intro x dx hdx
    simp [fwd_lgamma, hdx]
  · intro msg x dx dr a b d_a d_b M v w cerr
    refine ⟨dot_not_thrown v w msg, mul_Mat_Vec_not_thrown M v msg,
      rev_mul_Mat_Vec_not_thrown M v w msg, imaximum_not_thrown v msg,
      bind_not_thrown _ _ (imaximum_not_thrown v) (fun i => idx_not_thrown v i) msg,
      bind_not_thrown _ _ (imaximum_not_thrown v) (fun i => idx_not_thrown w i) msg,
      bind_not_thrown _ _ (imaximum_not_thrown v) (fun i => ok_not_thrown _) msg,
      ok_not_thrown _ msg, ok_not_thrown _ msg, ok_not_thrown _ msg, ok_not_thrown _ msg,
      ?_⟩
    simp [fwd_lgamma]

/-- C18 at the integers: the error of `digamma` at `0` differs from the error
of `rev$lgamma` at `(1, 5)`, of `fwd$lgamma` at the non-zero tangent `1`, and
of the three reserved slots at other arguments. -/
theorem unimplemented_errors_distinct_witness :
    ∃ e1 e2 e3 e4 e5 e6 : KsError,
      digamma (0 : Int) = .error e1 ∧ rev_lgamma (1 : Int) 5 = .error e2 ∧
      fwd_lgamma (2 : Int) 1 = .error e3 ∧ fwd_pow_aFloat (2 : Int) 3 1 4 = .error e4 ∧
      rev_pow_aFloat (4 : Int) 3 5 = .error e5 ∧ rev_gt (6 : Int) 7 () = .error e6 ∧
      [e1, e2, e3, e4, e5, e6].Nodup ∧
      (∀ ei, ei ∈ [e1, e2, e3, e4, e5, e6] → ei ≠ .assertion "size(v) > 0") := by
  obtain ⟨m1, m2, m3, m4, m5, m6, hnd, h1, h2, h3, h4, h5, h6, _, hne, _⟩ :=
    unimplemented_errors_distinct Int
  refine ⟨_, _, _, _, _, _, h1 0, h2 1 5, h3 2 1 (by decide), h4 2 3 1 4, h5 4 3 5,
    h6 6 7, hnd, ?_⟩
  intro ei hei
  simp only [List.mem_cons, List.mem_singleton, List.not_mem_nil, or_false] at hei
  rcases hei with h | h | h | h | h | h <;> subst h
  · exact (hne m1 (by simp)).1
  · exact (hne m2 (by simp)).1
  · exact (hne m3 (by simp)).1
  · exact (hne m4 (by simp)).1
  · exact (hne m5 (by simp)).1
  · exact (hne m6 (by simp)).1

/-- C19: the forward and reverse rules of Maximum are adjoint to each other.
For every non-empty vector `v`, every tangent `dv` of the same length and
every scalar adjoint `dr`, `dot(rev$maximum(v, dr), dv) = dr * fwd$maximum(v, dv)`,
all three calls returning; both rules select the index `imaximum(v)`, also at
ties (as in `[3, 7, 2, 7]`, tangent `[10, 20, 30, 40]`, adjoint `2`: both
sides are `40`). -/
theorem maximum_fwd_rev_adjoint {α : Type} [LinearOrderedCommRing α] (v dv : List α)
    (dr : α) (cerr cerr1 : List String) (hv : v ≠ []) (hlen : dv.length = v.length) :
    (∃ k out d, imaximum v = .ok k ∧
      (rev_maximum v dr cerr).1 = .ok out ∧
      (fwd_maximum v dv cerr1).1 = .ok d ∧
      dot out dv = .ok (dr * d)) ∧
    ((rev_maximum [3, 7, 2, (7 : Int)] 2 cerr).1 = .ok [0, 2, 0, 0] ∧
      (fwd_maximum [3, 7, 2, (7 : Int)] [10, 20, 30, 40] cerr1).1 = .ok 20 ∧
      dot [0, 2, 0, (0 : Int)] [10, 20, 30, 40] = .ok (2 * 20)) := by
  refine ⟨?_, by simp only [rev_maximum]; decide, by simp only [fwd_maximum]; decide,
    by decide⟩
  obtain ⟨k, vk, hi, hk, _, _⟩ := imaximum_scan v (List.length_pos.mpr hv)
  have hkl : k < v.length := lt_length_of_getElem?_eq_some v k vk hk
  have hkd : k < dv.length := by omega
  refine ⟨k, deltaVec v.length k dr, dv.getD k 0, hi, ?_, ?_, ?_⟩
  · simp only [rev_maximum]
    rw [hi, ok_bind]
    rfl
  · simp only [fwd_maximum]
    rw [hi, ok_bind]
    exact idx_getD dv k hkd 0
  · rw [← hlen, dot_of_length_eq _ _ (length_deltaVec _ _ _), dotSum_deltaVec dv k dr hkd]

/-- C19 at the integer vector `[3, 7, 2, 7]`, whose maximum is attained twice. -/
theorem maximum_fwd_rev_adjoint_witness :
    (∃ k out d, imaximum [3, 7, 2, (7 : Int)] = .ok k ∧
      (rev_maximum [3, 7, 2, (7 : Int)] 2 []).1 = .ok out ∧
      (fwd_maximum [3, 7, 2, (7 : Int)] [10, 20, 30, 40] []).1 = .ok d ∧
      dot out [10, 20, 30, 40] = .ok (2 * d)) ∧
    ((rev_maximum [3, 7, 2, (7 : Int)] 2 []).1 = .ok [0, 2, 0, 0] ∧
      (fwd_maximum [3, 7, 2, (7 : Int)] [10, 20, 30, 40] []).1 = .ok 20 ∧
      dot [0, 2, 0, (0 : Int)] [10, 20, 30, 40] = .ok (2 * 20)) :=
  maximum_fwd_rev_adjoint [3, 7, 2, 7] [10, 20, 30, 40] 2 [] [] (by simp) rfl

end ks
